import Mathlib

/-!
# Verification of the Lumous gallery client core

A shallow embedding, in Lean 4, of the parts of the Lumous desktop-gallery
client that implement the streaming record cache, the folder scoping of
incoming records, the ancestry tree builder, natural-order sorting, and the
adaptive grid layout.  JavaScript strings are modelled as `List Char`
(the app only manipulates ASCII-ish path strings), JavaScript numbers that
hold integral values are modelled as `Int`/`Nat`, and `undefined`/absent
query-cache entries are modelled with `Option`.
-/

/-- JavaScript strings, modelled as lists of characters. -/
abbrev Str := List Char

/-- Coerce a Lean string literal to the `Str` model. -/
def str (s : String) : Str := s.data

namespace Lumous

/-- `p.toLowerCase()` on a path string (per-character ASCII lowering). -/
def normPath (p : Str) : Str := p.map Char.toLower

/-- `s.startsWith(pre)` for JavaScript strings. -/
def jsStartsWith : Str → Str → Bool
  | _, [] => true
  | [], _ :: _ => false
  | c :: cs, d :: ds => c == d && jsStartsWith cs ds

/-- The `FileMeta` record of `src/types.ts` (the fields the modelled code
reads or that distinguish records; the opaque EXIF payload and album/tag
bookkeeping are never consulted by the code under verification). -/
structure FileMeta where
  id : Str
  path : Str
  name : Str
  size : Int
  modified : Str
  created : Str
  file_type : Str
  thumbnail_path : Option Str
  rating : Option Int
  deriving Repr, DecidableEq, Inhabited

/-- Key of a record in the per-folder query cache: its lower-cased path,
`norm(f.path)` in the `file-indexed` / `files-indexed-batch` / `file-updated`
listeners of the App component. -/
def recordKey (f : FileMeta) : Str := normPath f.path

/-- The updater the `file-indexed` listener passes to `setQueryData`:
if a record with the same normalized path already exists the old data is
returned unchanged, otherwise the new record is appended. -/
def applyFileIndexed (old : List FileMeta) (file : FileMeta) : List FileMeta :=
  if old.any (fun f => recordKey f == recordKey file) then old else old ++ [file]

/-- The updater the `file-updated` listener passes to `setQueryData`:
the first record with the same normalized path is replaced in place,
and if none exists the record is appended. -/
def applyFileUpdated (old : List FileMeta) (updated : FileMeta) : List FileMeta :=
  match old.findIdx? (fun f => recordKey f == recordKey updated) with
  | some idx => old.set idx updated
  | none => old ++ [updated]

/-- One step of `Map.prototype.set` on an insertion-ordered association
list: an existing key keeps its position and gets the new value, a new key
is appended. -/
def mapSet (m : List (Str × FileMeta)) (k : Str) (v : FileMeta) :
    List (Str × FileMeta) :=
  if m.any (fun e => e.1 == k) then
    m.map (fun e => if e.1 == k then (k, v) else e)
  else
    m ++ [(k, v)]

/-- `for (const f of fs) map.set(norm(f.path), f)`. -/
def mapSetAll (m : List (Str × FileMeta)) (fs : List FileMeta) :
    List (Str × FileMeta) :=
  fs.foldl (fun m f => mapSet m (recordKey f) f) m

/-- The updater of the `files-indexed-batch` listener: a `Map` is populated
from the old data and then from the (already folder-filtered) batch, and
`Array.from(map.values())` is returned. -/
def applyBatchUpsert (old : List FileMeta) (batch : List FileMeta) :
    List FileMeta :=
  (mapSetAll (mapSetAll [] old) batch).map Prod.snd

/-- JavaScript truthiness of the `selectedFolder : string | null` state. -/
def truthy : Option Str → Bool
  | none => false
  | some s => !s.isEmpty

/-- The complete `file-indexed` listener: the record is admitted only when a
folder is selected and the lower-cased record path starts with the
lower-cased folder path; an absent cache entry becomes `[file]`. -/
def fileIndexedListener (selectedFolder : Option Str)
    (cache : Option (List FileMeta)) (file : FileMeta) :
    Option (List FileMeta) :=
  match selectedFolder with
  | none => cache
  | some folder =>
    if folder.isEmpty then cache
    else if jsStartsWith (normPath file.path) (normPath folder) then
      match cache with
      | none => some [file]
      | some old => some (applyFileIndexed old file)
    else cache

/-- The complete `file-updated` listener. -/
def fileUpdatedListener (selectedFolder : Option Str)
    (cache : Option (List FileMeta)) (updated : FileMeta) :
    Option (List FileMeta) :=
  match selectedFolder with
  | none => cache
  | some folder =>
    if folder.isEmpty then cache
    else if jsStartsWith (normPath updated.path) (normPath folder) then
      match cache with
      | none => some [updated]
      | some old => some (applyFileUpdated old updated)
    else cache

/-- The complete `files-indexed-batch` listener: empty batches are ignored,
the batch is filtered to records whose lower-cased path starts with the
lower-cased selected folder, and if any survive the map-merge updater runs
(`oldData` absent behaves as the empty collection). -/
def filesIndexedBatchListener (selectedFolder : Option Str)
    (cache : Option (List FileMeta)) (batch : List FileMeta) :
    Option (List FileMeta) :=
  if batch.isEmpty then cache
  else match selectedFolder with
  | none => cache
  | some folder =>
    if folder.isEmpty then cache
    else
      let folderLc := normPath folder
      let forThisFolder := batch.filter (fun f => jsStartsWith (normPath f.path) folderLc)
      if forThisFolder.isEmpty then cache
      else some (applyBatchUpsert (cache.getD []) forThisFolder)

/-! ## Adaptive grid layout (`src/components/FileGrid.tsx`) -/

/-- `Math.floor(a / b)` for integral JavaScript numbers with `b > 0`
(floor division). -/
def jsFloorDiv (a b : Int) : Int := a.fdiv b

/-- `Math.ceil(a / b)` for integral JavaScript numbers with `b > 0`. -/
def jsCeilDiv (a b : Int) : Int := -((-a).fdiv b)

/-- The Tailwind `gap-3` constant of the grid. -/
def gap : Int := 12

/-- The Tailwind `p-3` outer padding of the scroll container. -/
def padding : Int := 12

/-- `viewportWidth = Math.max(0, containerSize.width - padding * 2)`. -/
def viewportWidthOf (containerWidth : Int) : Int :=
  max 0 (containerWidth - padding * 2)

/-- The `cols` memo of `FileGrid`: one column for a non-positive viewport,
an explicit per-row override clamped to `[1, 12]`, and otherwise
`max(1, floor((viewportWidth + gap) / slot))` with `slot = baseSize + gap`. -/
def cols (viewportWidth : Int) (baseSize : Int) (imagesPerRow : Option Int) : Int :=
  if viewportWidth ≤ 0 then 1
  else
    match imagesPerRow with
    | some n => if 0 < n then max 1 (min 12 n) else max 1 (jsFloorDiv (viewportWidth + gap) (baseSize + gap))
    | none => max 1 (jsFloorDiv (viewportWidth + gap) (baseSize + gap))

/-- The `contentSize` memo of `FileGrid`: the per-cell square size,
`floor((viewportWidth - gap*(cols-1)) / cols)` clamped to `[80, 640]`,
with the nominal size as fallback for degenerate inputs. -/
def contentSize (viewportWidth : Int) (baseSize : Int) (imagesPerRow : Option Int) : Int :=
  let c := cols viewportWidth baseSize imagesPerRow
  if viewportWidth ≤ 0 then baseSize
  else if c ≤ 0 then baseSize
  else max 80 (min 640 (jsFloorDiv (viewportWidth - gap * (c - 1)) c))

/-- `rowCount = Math.ceil(files.length / cols)`. -/
def rowCount (numFiles : Nat) (c : Int) : Int := jsCeilDiv numFiles c

/-- The `cellRenderer` of `FileGrid`, reduced to the datum it materializes:
the linear index `rowIndex * cols + columnIndex` is looked up only when it
is below `files.length`; otherwise an empty placeholder (`none`) results. -/
def cellRenderer (files : List FileMeta) (c : Int) (rowIndex columnIndex : Nat) :
    Option FileMeta :=
  let index : Int := rowIndex * c + columnIndex
  if files.length ≤ index then none
  else files[index.toNat]?

/-- What the `FileGrid` component mounts. -/
inductive GridOutcome where
  | loadingScreen
  | emptyState
  | blank
  | virtualGrid
  deriving Repr, DecidableEq

/-- The early-return / mount structure of the `FileGrid` component body:
a loading screen while loading, the "No images found" state for an empty
collection, and otherwise the virtualized grid exactly when both measured
container dimensions are positive. -/
def fileGridOutcome (isLoading : Bool) (files : List FileMeta)
    (containerWidth containerHeight : Int) : GridOutcome :=
  if isLoading then .loadingScreen
  else if files.length = 0 then .emptyState
  else if 0 < containerWidth ∧ 0 < containerHeight then .virtualGrid
  else .blank

/-- A fixture record used by concrete counterexamples and witnesses. -/
def sampleFile : FileMeta :=
  ⟨str "1", str "C:/Lib/a.png", str "a.png", 10, str "m", str "c", str "png",
    none, none⟩

/-- A newer snapshot of `sampleFile`: same path, thumbnail now present. -/
def sampleFileB : FileMeta :=
  { sampleFile with thumbnail_path := some (str "C:/Cache/a.jpg") }

/-- Euclidean division by a positive integer: standard floor bounds. -/
theorem ediv_bounds (a : Int) {b : Int} (hb : 0 < b) :
    b * (a / b) ≤ a ∧ a < b * (a / b) + b := by
  have hmod := Int.emod_nonneg a (by omega : b ≠ 0)
  have hlt := Int.emod_lt_of_pos a hb
  have hdm := Int.ediv_add_emod a b
  omega

/-- The column count is at least 1 for every input. -/
theorem one_le_cols (vw base : Int) (ipr : Option Int) : 1 ≤ cols vw base ipr := by
  unfold cols
  split
  · omega
  · cases ipr with
    | none => exact le_max_left 1 _
    | some n =>
      by_cases hn : 0 < n
      · simp only [if_pos hn]
        exact le_max_left 1 _
      · simp only [if_neg hn]
        exact le_max_left 1 _

/-- C10: for every positive viewport width the computed cell dimension lies
in the inclusive range [80, 640], regardless of the nominal cell size and of
any per-row override. -/
theorem c10_contentSize_clamped (vw base : Int) (ipr : Option Int) (h : 0 < vw) :
    80 ≤ contentSize vw base ipr ∧ contentSize vw base ipr ≤ 640 := by
  have hc := one_le_cols vw base ipr
  simp only [contentSize, if_neg (by omega : ¬ vw ≤ 0),
    if_neg (by omega : ¬ cols vw base ipr ≤ 0)]
  exact ⟨le_max_left _ _, max_le (by norm_num) (min_le_left _ _)⟩

/-- Witness for `c10_contentSize_clamped` at a concrete input. -/
theorem c10_contentSize_clamped_witness :
    (0:Int) < 1 ∧ 80 ≤ contentSize 1 0 none ∧ contentSize 1 0 none ≤ 640 :=
  ⟨by decide, c10_contentSize_clamped 1 0 none (by decide)⟩

/-- C9: the computed column count is always at least one, and the cell
renderer materializes a record only for linear indices
`rowIndex * cols + columnIndex` inside `[0, files.length)`; any position at
or past the record count yields the empty placeholder. -/
theorem c9_window_in_bounds :
    (∀ (vw base : Int) (ipr : Option Int), 1 ≤ cols vw base ipr) ∧
    (∀ (files : List FileMeta) (c : Int) (row col : Nat), 1 ≤ c →
      ((files.length : Int) ≤ (row : Int) * c + (col : Int) →
        cellRenderer files c row col = none) ∧
      (∀ f, cellRenderer files c row col = some f →
        ∃ i : Nat, (i : Int) = (row : Int) * c + (col : Int) ∧
          i < files.length ∧ files[i]? = some f)) := by
  refine ⟨one_le_cols, ?_⟩
  intro files c row col hc
  have hnn : (0:Int) ≤ (row : Int) * c + (col : Int) := by positivity
  constructor
  · intro hle
    simp only [cellRenderer, if_pos hle]
  · intro f hf
    simp only [cellRenderer] at hf
    by_cases hle : (files.length : Int) ≤ (row : Int) * c + (col : Int)
    · rw [if_pos hle] at hf
      exact absurd hf (by simp)
    · rw [if_neg hle] at hf
      refine ⟨((row : Int) * c + (col : Int)).toNat, Int.toNat_of_nonneg hnn, ?_, hf⟩
      omega

/-- Witness for `c9_window_in_bounds` at a concrete input. -/
theorem c9_window_in_bounds_witness :
    1 ≤ (1:Int) ∧ cellRenderer [sampleFile] 1 1 0 = none :=
  ⟨by decide, (c9_window_in_bounds.2 [sampleFile] 1 1 0 (by decide)).1 (by decide)⟩

/-- C7 counterexample: with a measured container 20px wide (and 500px tall)
the derived viewport width is 0 (≤ 0), yet the component mounts the
virtualized grid and its first cell materializes a record — "nothing is
rendered" fails; only the "columns = 1" half of that edge policy holds. -/
theorem c7_counterexample :
    viewportWidthOf 20 ≤ 0 ∧
    fileGridOutcome false [sampleFile] 20 500 = GridOutcome.virtualGrid ∧
    cols (viewportWidthOf 20) 200 none = 1 ∧
    cellRenderer [sampleFile] (cols (viewportWidthOf 20) 200 none) 0 0
      = some sampleFile := by
  decide

/-- C7 as amended: without a per-row override the column count equals
`max(1, floor((viewportWidth + gap) / (nominalCellSize + gap)))`; a
non-positive viewport width always yields exactly one column; the row count
is the exact ceiling of `recordCount / columns` (in particular `0` iff the
record count is `0`); and with an unmeasured (zero-width) container nothing
is rendered. -/
theorem c7_amended :
    (∀ vw base : Int, 0 ≤ base →
      cols vw base none = max 1 (jsFloorDiv (vw + gap) (base + gap))) ∧
    (∀ (vw base : Int) (ipr : Option Int), vw ≤ 0 → cols vw base ipr = 1) ∧
    (∀ (n : Nat) (c : Int), 0 < c →
      (rowCount n c = 0 ↔ n = 0) ∧
      c * (rowCount n c - 1) < (n : Int) ∧ (n : Int) ≤ c * rowCount n c) ∧
    (∀ (isLoading : Bool) (files : List FileMeta) (ch : Int),
      fileGridOutcome isLoading files 0 ch ≠ GridOutcome.virtualGrid) := by
  have hgap : gap = 12 := rfl
  refine ⟨?_, ?_, ?_, ?_⟩
  · intro vw base hb
    by_cases hvw : vw ≤ 0
    · simp only [cols, if_pos hvw, jsFloorDiv]
      have hslot : (0:Int) < base + gap := by omega
      rw [Int.fdiv_eq_ediv _ (le_of_lt hslot)]
      have h1 : (vw + gap) / (base + gap) ≤ (base + gap) / (base + gap) :=
        Int.ediv_le_ediv hslot (by omega)
      rw [Int.ediv_self (by omega)] at h1
      omega
    · simp only [cols, if_neg hvw]
  · intro vw base ipr h
    simp only [cols, if_pos h]
  · intro n c hc
    have hb := ediv_bounds (-(n : Int)) hc
    simp only [rowCount, jsCeilDiv, Int.fdiv_eq_ediv _ (le_of_lt hc)]
    constructor
    · constructor
      · intro h
        have h0 : c * ((-(n:Int)) / c) = 0 := by
          have : (-(n:Int)) / c = 0 := by omega
          rw [this, mul_zero]
        have : (n : Int) ≤ 0 := by linarith [hb.1, h0.symm.le]
        omega
      · intro h
        subst h
        simp
    · have e1 : c * (-((-(n:Int)) / c) - 1) = -(c * ((-(n:Int)) / c)) - c := by ring
      have e2 : c * -((-(n:Int)) / c) = -(c * ((-(n:Int)) / c)) := by ring
      rw [e1, e2]
      constructor
      · linarith [hb.2]
      · linarith [hb.1]
  · intro isL files ch
    simp only [fileGridOutcome]
    split
    · simp
    · split
      · simp
      · rw [if_neg (by omega : ¬ ((0:Int) < 0 ∧ 0 < ch))]
        simp

/-- Witness for `c7_amended` at concrete inputs. -/
theorem c7_amended_witness :
    (0:Int) ≤ 200 ∧ cols 1000 200 none = max 1 (jsFloorDiv (1000 + gap) (200 + gap)) :=
  ⟨by decide, c7_amended.1 1000 200 (by decide)⟩

/-- C8 counterexample: at the claim's own concrete input
(`viewportWidth = 1000`, `gap = 12`, `nominalCellSize = 200`) the layout
returns `columns = 4` and `cellSize = 241`, but `4 * (241 + 12) = 1012` is
12px away from 1000 — not within 1px; the claim's fill accounting
`columns * (cellSize + gap)` is wrong for the code. -/
theorem c8_counterexample :
    cols 1000 200 none = 4 ∧ contentSize 1000 200 none = 241 ∧
    4 * (contentSize 1000 200 none + gap) - 1000 = 12 ∧
    ¬ ((4 * (contentSize 1000 200 none + gap) - 1000).natAbs ≤ 1) := by
  decide

/-- C8 as amended: when the viewport is at least the nominal size and the
nominal size does not exceed the 640px clamp, the stretched cell size is at
least nominal; the unclamped cell size `raw` satisfies the exact-fill bounds
`columns * raw + (columns - 1) * gap ≤ viewportWidth` with slack less than
`columns`; the returned cell size equals `raw` whenever no clamp binds; and
at the claim's concrete input the fill is exact:
`4 * 241 + 3 * 12 = 1000`. -/
theorem c8_amended :
    (∀ vw base : Int, 0 < vw → 0 ≤ base →
      (base ≤ vw → base ≤ 640 → base ≤ contentSize vw base none) ∧
      (cols vw base none
            * jsFloorDiv (vw - gap * (cols vw base none - 1)) (cols vw base none)
          + gap * (cols vw base none - 1) ≤ vw ∧
        vw < cols vw base none
            * jsFloorDiv (vw - gap * (cols vw base none - 1)) (cols vw base none)
          + gap * (cols vw base none - 1) + cols vw base none) ∧
      (80 ≤ jsFloorDiv (vw - gap * (cols vw base none - 1)) (cols vw base none) →
        jsFloorDiv (vw - gap * (cols vw base none - 1)) (cols vw base none) ≤ 640 →
        contentSize vw base none
          = jsFloorDiv (vw - gap * (cols vw base none - 1)) (cols vw base none))) ∧
    (cols 1000 200 none = 4 ∧ contentSize 1000 200 none = 241 ∧
      4 * 241 + 3 * gap = (1000:Int)) := by
  constructor
  · intro vw base hvw hb
    have hgap : gap = 12 := rfl
    have hc1 : 1 ≤ cols vw base none := one_le_cols vw base none
    have hc0 : (0:Int) < cols vw base none := by omega
    have hraw := ediv_bounds (vw - gap * (cols vw base none - 1)) hc0
    have hrawdef : jsFloorDiv (vw - gap * (cols vw base none - 1)) (cols vw base none)
        = (vw - gap * (cols vw base none - 1)) / (cols vw base none) := by
      simp only [jsFloorDiv]
      exact Int.fdiv_eq_ediv _ (le_of_lt hc0)
    refine ⟨?_, ?_, ?_⟩
    · intro hbv hb640
      -- the column count is exactly the floor formula here
      have hslot : (0:Int) < base + gap := by omega
      have hq1 : 1 ≤ (vw + gap) / (base + gap) := by
        rw [Int.le_ediv_iff_mul_le hslot]
        omega
      have hcdef : cols vw base none = (vw + gap) / (base + gap) := by
        simp only [cols, if_neg (by omega : ¬ vw ≤ 0), jsFloorDiv,
          Int.fdiv_eq_ediv _ (le_of_lt hslot)]
        omega
      -- columns * slot ≤ viewport + gap
      have hfit : (base + gap) * ((vw + gap) / (base + gap)) ≤ vw + gap :=
        (ediv_bounds (vw + gap) hslot).1
      rw [← hcdef] at hfit
      have hnum : base * cols vw base none
          ≤ vw - gap * (cols vw base none - 1) := by nlinarith
      have hble : base ≤ (vw - gap * (cols vw base none - 1)) / (cols vw base none) := by
        rw [Int.le_ediv_iff_mul_le hc0]
        linarith [hnum, mul_comm base (cols vw base none)]
      simp only [contentSize, if_neg (by omega : ¬ vw ≤ 0), if_neg (by omega : ¬ cols vw base none ≤ 0),
        jsFloorDiv, Int.fdiv_eq_ediv _ (le_of_lt hc0)]
      have : base ≤ min 640 ((vw - gap * (cols vw base none - 1)) / (cols vw base none)) :=
        le_min hb640 hble
      exact le_trans this (le_max_right 80 _)
    · rw [hrawdef]
      exact ⟨by linarith [hraw.1], by linarith [hraw.2]⟩
    · intro h80 h640
      simp only [contentSize, if_neg (by omega : ¬ vw ≤ 0),
        if_neg (by omega : ¬ cols vw base none ≤ 0)]
      rw [min_eq_right h640, max_eq_right h80]
  · exact ⟨by decide, by decide, by decide⟩

/-- Witness for `c8_amended` at a concrete input. -/
theorem c8_amended_witness :
    (0:Int) < 1000 ∧ (0:Int) ≤ 200 ∧ 200 ≤ contentSize 1000 200 none :=
  ⟨by decide, by decide,
    ((c8_amended.1 1000 200 (by decide) (by decide)).1 (by decide) (by decide))⟩

/-! ## Lemmas about the single-record upsert updaters -/

/-- The keys (normalized paths) of a record collection. -/
def keysOf (l : List FileMeta) : List Str := l.map recordKey

theorem applyFileUpdated_nil (u : FileMeta) : applyFileUpdated [] u = [u] := rfl

theorem applyFileUpdated_cons (f : FileMeta) (t : List FileMeta) (u : FileMeta) :
    applyFileUpdated (f :: t) u =
      if recordKey f == recordKey u then u :: t
      else f :: applyFileUpdated t u := by
  by_cases h : recordKey f == recordKey u
  · simp only [applyFileUpdated, List.findIdx?_cons, h, if_true, List.set_cons_zero]
  · simp only [applyFileUpdated, List.findIdx?_cons, h, if_false, Bool.false_eq_true]
    cases hfind : t.findIdx? (fun g => recordKey g == recordKey u) with
    | none => simp [hfind]
    | some i => simp [hfind]

theorem anyKey_iff (l : List FileMeta) (f : FileMeta) :
    l.any (fun g => recordKey g == recordKey f) = true
      ↔ ∃ g ∈ l, recordKey g = recordKey f := by
  simp [List.any_eq_true]

/-- C1 counterexample: a `file-indexed` upsert whose normalized path matches
an existing record does not replace it — the collection keeps the old
record and the newly supplied one is dropped, both at the raw updater and
through the full listener. -/
theorem c1_counterexample :
    recordKey sampleFileB = recordKey sampleFile ∧ sampleFileB ≠ sampleFile ∧
    applyFileIndexed [sampleFile] sampleFileB = [sampleFile] ∧
    sampleFileB ∉ applyFileIndexed [sampleFile] sampleFileB ∧
    fileIndexedListener (some (str "C:/Lib")) (some [sampleFile]) sampleFileB
      = some [sampleFile] := by
  decide

/-- C1 as amended: the `file-updated` single-record upsert replaces —
when some record shares the incoming record's normalized path, the incoming
record enters the collection, the old record (if distinct) leaves it, and
the length is unchanged; with no such record it appends.  The
`file-indexed` single-record upsert never replaces: an existing record with
the same normalized path leaves the collection unchanged, and only an
unseen normalized path appends. -/
theorem c1_upsert_merge_rule :
    (∀ (old : List FileMeta) (f g : FileMeta), g ∈ old →
      recordKey g = recordKey f → applyFileIndexed old f = old) ∧
    (∀ (old : List FileMeta) (f : FileMeta),
      (∀ g ∈ old, recordKey g ≠ recordKey f) →
      applyFileIndexed old f = old ++ [f]) ∧
    (∀ (old : List FileMeta) (f g : FileMeta), (keysOf old).Nodup → g ∈ old →
      recordKey g = recordKey f → g ≠ f →
      f ∈ applyFileUpdated old f ∧ g ∉ applyFileUpdated old f ∧
        (applyFileUpdated old f).length = old.length) ∧
    (∀ (old : List FileMeta) (f : FileMeta),
      (∀ g ∈ old, recordKey g ≠ recordKey f) →
      applyFileUpdated old f = old ++ [f]) := by
  refine ⟨?_, ?_, ?_, ?_⟩
  · intro old f g hg hk
    simp only [applyFileIndexed, if_pos ((anyKey_iff old f).mpr ⟨g, hg, hk⟩)]
  · intro old f h
    have : ¬ old.any (fun g => recordKey g == recordKey f) = true := by
      rw [anyKey_iff]
      rintro ⟨g, hg, hk⟩
      exact h g hg hk
    simp only [applyFileIndexed, this, if_false, Bool.false_eq_true]
  · intro old f g
    induction old with
    | nil => intro _ hg _ _; cases hg
    | cons h t ih =>
      intro hnd hg hk hne
      have hndc : (recordKey h :: keysOf t).Nodup := hnd
      have hhk : recordKey h ∉ keysOf t := (List.nodup_cons.mp hndc).1
      have hndt : (keysOf t).Nodup := (List.nodup_cons.mp hndc).2
      rw [applyFileUpdated_cons]
      by_cases hh : recordKey h = recordKey f
      · rw [if_pos (beq_iff_eq.mpr hh)]
        -- the replaced record is the head: g can only be h
        have hgh : g = h := by
          rcases List.mem_cons.mp hg with h1 | h1
          · exact h1
          · exfalso
            apply hhk
            have h2 := List.mem_map_of_mem recordKey h1
            rwa [hk, ← hh] at h2
        subst hgh
        refine ⟨List.mem_cons_self f t, ?_, by simp⟩
        intro hmem
        rcases List.mem_cons.mp hmem with h1 | h1
        · exact hne h1
        · exact hhk (List.mem_map_of_mem recordKey h1)
      · rw [if_neg (by simpa using hh)]
        have hgt : g ∈ t := by
          rcases List.mem_cons.mp hg with h1 | h1
          · exact absurd (h1 ▸ hk) hh
          · exact h1
        obtain ⟨h1, h2, h3⟩ := ih hndt hgt hk hne
        refine ⟨List.mem_cons_of_mem h h1, ?_, by simpa using h3⟩
        intro hmem
        rcases List.mem_cons.mp hmem with hm | hm
        · exact hh (hm ▸ hk)
        · exact h2 hm
  · intro old f
    induction old with
    | nil => intro _; rfl
    | cons g t ih =>
      intro hno
      rw [applyFileUpdated_cons,
        if_neg (by simpa using hno g (List.mem_cons_self g t)),
        ih (fun x hx => hno x (List.mem_cons_of_mem g hx))]
      rfl

/-- Witness for `c1_upsert_merge_rule` at a concrete input. -/
theorem c1_upsert_merge_rule_witness :
    (keysOf [sampleFile]).Nodup ∧
    sampleFileB ∈ applyFileUpdated [sampleFile] sampleFileB ∧
    sampleFile ∉ applyFileUpdated [sampleFile] sampleFileB ∧
    (applyFileUpdated [sampleFile] sampleFileB).length = 1 :=
  ⟨by decide,
    (c1_upsert_merge_rule.2.2.1 [sampleFile] sampleFileB sampleFile
      (by decide) (by decide) (by decide) (by decide))⟩

/-! ## Lemmas about the insertion-ordered map of the batch updater -/

/-- The keys of the association-list model of the JavaScript `Map`. -/
def keysA (m : List (Str × FileMeta)) : List Str := m.map Prod.fst

/-- The values of the map, in insertion order (`Array.from(map.values())`). -/
def valsA (m : List (Str × FileMeta)) : List FileMeta := m.map Prod.snd

/-- `map.get(k)`, for reasoning about the map contents. -/
def lookupA (m : List (Str × FileMeta)) (k : Str) : Option FileMeta :=
  (m.find? (fun e => e.1 == k)).map Prod.snd

/-- The last record of a batch carrying a given normalized path. -/
def lastMatch : List FileMeta → Str → Option FileMeta
  | [], _ => none
  | f :: fs, k => (lastMatch fs k).or (if recordKey f == k then some f else none)

/-- Every entry of the maps built by the batch updater keys a record by its
normalized path. -/
def alignedA (m : List (Str × FileMeta)) : Prop :=
  ∀ e ∈ m, e.1 = recordKey e.2

theorem find?_pred_congr {α : Type _} {p q : α → Bool} :
    ∀ (l : List α), (∀ x ∈ l, p x = q x) → l.find? p = l.find? q := by
  intro l
  induction l with
  | nil => intro _; rfl
  | cons a l ih =>
    intro h
    have ha := h a (List.mem_cons_self a l)
    by_cases hpa : p a = true
    · rw [List.find?_cons_of_pos l hpa, List.find?_cons_of_pos l (ha ▸ hpa)]
    · rw [List.find?_cons_of_neg l hpa,
        List.find?_cons_of_neg l (by rw [← ha]; exact hpa),
        ih (fun x hx => h x (List.mem_cons_of_mem a hx))]

theorem hasKey_iff (m : List (Str × FileMeta)) (k : Str) :
    m.any (fun e => e.1 == k) = true ↔ k ∈ keysA m := by
  rw [List.any_eq_true]
  constructor
  · rintro ⟨e, he, hek⟩
    rw [beq_iff_eq] at hek
    exact hek ▸ List.mem_map_of_mem Prod.fst he
  · intro hk
    rw [keysA, List.mem_map] at hk
    obtain ⟨e, he, hek⟩ := hk
    exact ⟨e, he, beq_iff_eq.mpr hek⟩

theorem mapSet_of_not_mem {m : List (Str × FileMeta)} {k : Str} (v : FileMeta)
    (h : k ∉ keysA m) : mapSet m k v = m ++ [(k, v)] := by
  rw [mapSet, if_neg]
  rw [hasKey_iff]
  exact h

theorem keysA_mapSet (m : List (Str × FileMeta)) (k : Str) (v : FileMeta) :
    keysA (mapSet m k v) = if k ∈ keysA m then keysA m else keysA m ++ [k] := by
  by_cases h : k ∈ keysA m
  · rw [if_pos h, mapSet, if_pos ((hasKey_iff m k).mpr h)]
    simp only [keysA, List.map_map]
    apply List.map_congr_left
    intro e _
    by_cases he : e.1 = k
    · simp [Function.comp, he]
    · simp [Function.comp, he]
  · rw [if_neg h, mapSet_of_not_mem v h]
    simp [keysA]

theorem mem_keysA_mapSet (m : List (Str × FileMeta)) (k : Str) (v : FileMeta) :
    k ∈ keysA (mapSet m k v) := by
  rw [keysA_mapSet]
  by_cases h : k ∈ keysA m
  · rwa [if_pos h]
  · rw [if_neg h]
    simp

theorem keysA_mapSet_mono {m : List (Str × FileMeta)} {j : Str} (k : Str)
    (v : FileMeta) (h : j ∈ keysA m) : j ∈ keysA (mapSet m k v) := by
  rw [keysA_mapSet]
  by_cases hk : k ∈ keysA m
  · rwa [if_pos hk]
  · rw [if_neg hk]
    exact List.mem_append_left _ h

theorem nodup_keysA_mapSet {m : List (Str × FileMeta)} (k : Str) (v : FileMeta)
    (h : (keysA m).Nodup) : (keysA (mapSet m k v)).Nodup := by
  rw [keysA_mapSet]
  by_cases hk : k ∈ keysA m
  · rwa [if_pos hk]
  · rw [if_neg hk]
    simp [List.nodup_append, h, hk]

theorem find?_key_eq_none_of_not_mem {m : List (Str × FileMeta)} {k : Str}
    (h : k ∉ keysA m) : m.find? (fun e => e.1 == k) = none := by
  rw [List.find?_eq_none]
  intro e he
  simp only [beq_iff_eq]
  intro hek
  exact h (hek ▸ List.mem_map_of_mem Prod.fst he)

theorem lookupA_eq_none_of_not_mem {m : List (Str × FileMeta)} {k : Str}
    (h : k ∉ keysA m) : lookupA m k = none := by
  rw [lookupA, find?_key_eq_none_of_not_mem h]
  rfl

theorem lookupA_mapSet_self (m : List (Str × FileMeta)) (k : Str) (v : FileMeta) :
    lookupA (mapSet m k v) k = some v := by
  by_cases h : k ∈ keysA m
  · rw [mapSet, if_pos ((hasKey_iff m k).mpr h)]
    rw [lookupA, List.find?_map]
    rw [find?_pred_congr m (q := fun e => e.1 == k) ?hq]
    case hq =>
      intro e _
      by_cases he : e.1 = k
      · simp [Function.comp, he]
      · simp [Function.comp, he]
    obtain ⟨e, he, hek⟩ : ∃ e ∈ m, e.1 = k := by
      simpa only [keysA, List.mem_map, eq_comm] using h
    have hsome : (m.find? (fun e => e.1 == k)).isSome :=
      List.find?_isSome.mpr ⟨e, he, beq_iff_eq.mpr hek⟩
    obtain ⟨e0, he0⟩ := Option.isSome_iff_exists.mp hsome
    rw [he0]
    have hp := List.find?_some he0
    simp only [beq_iff_eq] at hp
    simp [hp]
  · rw [mapSet_of_not_mem v h, lookupA, List.find?_append,
      find?_key_eq_none_of_not_mem h]
    simp

theorem lookupA_mapSet_ne (m : List (Str × FileMeta)) {k j : Str} (v : FileMeta)
    (h : j ≠ k) : lookupA (mapSet m k v) j = lookupA m j := by
  by_cases hk : k ∈ keysA m
  · rw [mapSet, if_pos ((hasKey_iff m k).mpr hk)]
    rw [lookupA, List.find?_map]
    rw [find?_pred_congr m (q := fun e => e.1 == j) ?hq]
    case hq =>
      intro e _
      by_cases he : e.1 = k
      · simp [Function.comp, he, beq_iff_eq, Ne.symm h]
      · simp [Function.comp, he]
    rw [lookupA]
    cases hres : m.find? (fun e => e.1 == j) with
    | none => simp
    | some e =>
      have hp := List.find?_some hres
      simp only [beq_iff_eq] at hp
      have hek : ¬ e.1 = k := by
        rw [hp]
        exact h
      simp [hp, hek, h]
  · rw [mapSet_of_not_mem v hk, lookupA, List.find?_append, lookupA]
    cases hres : m.find? (fun e => e.1 == j) with
    | none =>
      simp only [hres, Option.none_or, Option.map_none]
      rw [List.find?_cons_of_neg _ (by simpa using Ne.symm h)]
      rfl
    | some e => simp [hres]

/-- Extensionality for insertion-ordered maps with duplicate-free keys. -/
theorem mapExt : ∀ (m1 m2 : List (Str × FileMeta)), (keysA m1).Nodup →
    keysA m1 = keysA m2 → (∀ k, lookupA m1 k = lookupA m2 k) → m1 = m2
  | [], [], _, _, _ => rfl
  | [], e :: m2, _, hk, _ => by simp [keysA] at hk
  | e :: m1, [], _, hk, _ => by simp [keysA] at hk
  | (k1, v1) :: m1, (k2, v2) :: m2, hnd, hk, hl => by
    have hk12 : k1 = k2 := by
      have := congrArg (fun l => l.headD []) hk
      simpa [keysA] using this
    subst hk12
    have hndc : (k1 :: keysA m1).Nodup := hnd
    have hk1 : k1 ∉ keysA m1 := (List.nodup_cons.mp hndc).1
    have hkeys : keysA m1 = keysA m2 := by
      have := congrArg List.tail hk
      simpa [keysA] using this
    have hv : v1 = v2 := by
      have := hl k1
      simpa [lookupA, List.find?_cons_of_pos] using this
    subst hv
    have htail : m1 = m2 := by
      apply mapExt m1 m2 (List.nodup_cons.mp hndc).2 hkeys
      intro k
      by_cases hkk : k = k1
      · subst hkk
        rw [lookupA_eq_none_of_not_mem hk1,
          lookupA_eq_none_of_not_mem (hkeys ▸ hk1)]
      · have := hl k
        simpa [lookupA, List.find?_cons_of_neg, hkk, Ne.symm,
          show (k1 == k) = false by simpa using Ne.symm hkk] using this
    rw [htail]

theorem alignedA_mapSet {m : List (Str × FileMeta)} (v : FileMeta)
    (ha : alignedA m) : alignedA (mapSet m (recordKey v) v) := by
  intro e he
  by_cases h : recordKey v ∈ keysA m
  · rw [mapSet, if_pos ((hasKey_iff m (recordKey v)).mpr h)] at he
    obtain ⟨e0, he0, heq⟩ := List.mem_map.mp he
    by_cases h0 : (e0.1 == recordKey v) = true
    · rw [if_pos h0] at heq
      rw [← heq]
    · rw [if_neg h0] at heq
      exact heq ▸ ha e0 he0
  · rw [mapSet_of_not_mem v h] at he
    rcases List.mem_append.mp he with h1 | h1
    · exact ha e h1
    · have : e = (recordKey v, v) := by simpa using h1
      rw [this]

theorem alignedA_mapSetAll {m : List (Str × FileMeta)} (fs : List FileMeta)
    (ha : alignedA m) : alignedA (mapSetAll m fs) := by
  induction fs generalizing m with
  | nil => exact ha
  | cons f fs ih => exact ih (alignedA_mapSet f ha)

theorem nodup_keysA_mapSetAll {m : List (Str × FileMeta)} (fs : List FileMeta)
    (h : (keysA m).Nodup) : (keysA (mapSetAll m fs)).Nodup := by
  induction fs generalizing m with
  | nil => exact h
  | cons f fs ih => exact ih (nodup_keysA_mapSet _ _ h)

theorem keysA_mapSetAll_mono {m : List (Str × FileMeta)} {j : Str}
    (fs : List FileMeta) (h : j ∈ keysA m) : j ∈ keysA (mapSetAll m fs) := by
  induction fs generalizing m with
  | nil => exact h
  | cons f fs ih => exact ih (keysA_mapSet_mono _ _ h)

theorem mem_keysA_mapSetAll_of_mem {fs : List FileMeta} {f : FileMeta}
    (hf : f ∈ fs) (m : List (Str × FileMeta)) :
    recordKey f ∈ keysA (mapSetAll m fs) := by
  induction fs generalizing m with
  | nil => cases hf
  | cons g fs ih =>
    rcases List.mem_cons.mp hf with h1 | h1
    · subst h1
      exact keysA_mapSetAll_mono fs (mem_keysA_mapSet m _ _)
    · exact ih h1 _

theorem keysA_mapSetAll_of_all_mem {fs : List FileMeta}
    {m : List (Str × FileMeta)} (h : ∀ f ∈ fs, recordKey f ∈ keysA m) :
    keysA (mapSetAll m fs) = keysA m := by
  induction fs generalizing m with
  | nil => rfl
  | cons f fs ih =>
    have hstep : keysA (mapSet m (recordKey f) f) = keysA m := by
      rw [keysA_mapSet, if_pos (h f (List.mem_cons_self f fs))]
    have := ih (m := mapSet m (recordKey f) f)
      (fun g hg => hstep ▸ h g (List.mem_cons_of_mem f hg))
    calc keysA (mapSetAll (mapSet m (recordKey f) f) fs)
        = keysA (mapSet m (recordKey f) f) := this
      _ = keysA m := hstep

theorem lookupA_mapSetAll (m : List (Str × FileMeta)) (fs : List FileMeta)
    (k : Str) :
    lookupA (mapSetAll m fs) k = (lastMatch fs k).or (lookupA m k) := by
  induction fs generalizing m with
  | nil => rw [lastMatch, Option.none_or]; rfl
  | cons f fs ih =>
    have hstep : lookupA (mapSet m (recordKey f) f) k
        = (if (recordKey f == k) = true then some f else none).or (lookupA m k) := by
      by_cases hk : k = recordKey f
      · subst hk
        rw [lookupA_mapSet_self, if_pos (by simp), Option.or_some]
      · rw [lookupA_mapSet_ne m f hk,
          if_neg (by simpa using fun h => hk h.symm), Option.none_or]
    show lookupA (mapSetAll (mapSet m (recordKey f) f) fs) k = _
    rw [ih, hstep, lastMatch, ← Option.or_assoc]

theorem or_self_or (a b : Option FileMeta) : a.or (a.or b) = a.or b := by
  cases a with
  | none => rw [Option.none_or]
  | some x => rw [Option.or_some, Option.or_some]

/-- Rebuilding the map from its own values reproduces it. -/
theorem mapSetAll_valsA : ∀ (M m : List (Str × FileMeta)), alignedA M →
    (keysA (m ++ M)).Nodup → mapSetAll m (valsA M) = m ++ M
  | [], m, _, _ => by simp [mapSetAll, valsA]
  | (k, v) :: M, m, ha, hnd => by
    have hk : k = recordKey v := ha (k, v) (List.mem_cons_self _ _)
    have hknot : k ∉ keysA m := by
      have : (keysA m ++ k :: keysA M).Nodup := by
        simpa [keysA] using hnd
      intro hmem
      exact (List.disjoint_of_nodup_append this) hmem (List.mem_cons_self _ _)
    have hstep : mapSet m (recordKey v) v = m ++ [(k, v)] := by
      rw [← hk, mapSet_of_not_mem v hknot]
    have htail : mapSetAll (m ++ [(k, v)]) (valsA M) = (m ++ [(k, v)]) ++ M := by
      apply mapSetAll_valsA M (m ++ [(k, v)])
        (fun e he => ha e (List.mem_cons_of_mem _ he))
      rw [List.append_assoc]
      simpa using hnd
    show mapSetAll (mapSet m (recordKey v) v) (valsA M) = m ++ (k, v) :: M
    rw [hstep, htail, List.append_assoc]
    rfl

theorem keysOf_valsA {m : List (Str × FileMeta)} (ha : alignedA m) :
    keysOf (valsA m) = keysA m := by
  rw [keysOf, valsA, keysA, List.map_map]
  apply List.map_congr_left
  intro e he
  exact (ha e he).symm

theorem alignedA_nil : alignedA ([] : List (Str × FileMeta)) := by
  intro e he
  cases he

/-- Re-applying a batch to its own output is a no-op. -/
theorem applyBatchUpsert_idem (old fs : List FileMeta) :
    applyBatchUpsert (applyBatchUpsert old fs) fs = applyBatchUpsert old fs := by
  have hal : alignedA (mapSetAll (mapSetAll [] old) fs) :=
    alignedA_mapSetAll fs (alignedA_mapSetAll old alignedA_nil)
  have hnd : (keysA (mapSetAll (mapSetAll [] old) fs)).Nodup :=
    nodup_keysA_mapSetAll fs (nodup_keysA_mapSetAll old (by simp [keysA]))
  have hrebuild : mapSetAll [] (valsA (mapSetAll (mapSetAll [] old) fs))
      = mapSetAll (mapSetAll [] old) fs := by
    have := mapSetAll_valsA (mapSetAll (mapSetAll [] old) fs) [] hal
      (by simpa using hnd)
    simpa using this
  have hsecond : mapSetAll (mapSetAll (mapSetAll [] old) fs) fs
      = mapSetAll (mapSetAll [] old) fs := by
    apply mapExt
    · exact nodup_keysA_mapSetAll fs hnd
    · exact keysA_mapSetAll_of_all_mem
        (fun f hf => mem_keysA_mapSetAll_of_mem hf (mapSetAll [] old))
    · intro k
      rw [lookupA_mapSetAll, lookupA_mapSetAll, ← Option.or_assoc,
        lookupA_mapSetAll]
      cases lastMatch fs k with
      | none => rw [Option.none_or]
      | some x => rw [Option.or_some, Option.or_some]
  show (mapSetAll (mapSetAll []
      (valsA (mapSetAll (mapSetAll [] old) fs))) fs).map Prod.snd = _
  rw [hrebuild, hsecond]
  rfl

theorem applyFileIndexed_idem (old : List FileMeta) (f : FileMeta) :
    applyFileIndexed (applyFileIndexed old f) f = applyFileIndexed old f := by
  by_cases h : old.any (fun g => recordKey g == recordKey f) = true
  · simp [applyFileIndexed, h]
  · have h2 : (old ++ [f]).any (fun g => recordKey g == recordKey f) = true := by
      simp
    simp [applyFileIndexed, h, h2]

theorem applyFileUpdated_idem (old : List FileMeta) (u : FileMeta) :
    applyFileUpdated (applyFileUpdated old u) u = applyFileUpdated old u := by
  induction old with
  | nil =>
    rw [applyFileUpdated_nil, applyFileUpdated_cons, if_pos (by simp)]
  | cons h t ih =>
    rw [applyFileUpdated_cons]
    by_cases hh : (recordKey h == recordKey u) = true
    · rw [if_pos hh, applyFileUpdated_cons, if_pos (by simp)]
    · rw [if_neg hh, applyFileUpdated_cons, if_neg hh, ih]

/-- C2: replaying any of the three upsert events — `file-indexed`,
`file-updated`, or `files-indexed-batch` — immediately after itself leaves
the cached collection exactly as after the first application. -/
theorem c2_upsert_idempotent :
    (∀ (sel : Option Str) (cache : Option (List FileMeta)) (f : FileMeta),
      fileIndexedListener sel (fileIndexedListener sel cache f) f
        = fileIndexedListener sel cache f) ∧
    (∀ (sel : Option Str) (cache : Option (List FileMeta)) (u : FileMeta),
      fileUpdatedListener sel (fileUpdatedListener sel cache u) u
        = fileUpdatedListener sel cache u) ∧
    (∀ (sel : Option Str) (cache : Option (List FileMeta)) (batch : List FileMeta),
      filesIndexedBatchListener sel (filesIndexedBatchListener sel cache batch) batch
        = filesIndexedBatchListener sel cache batch) := by
  refine ⟨?_, ?_, ?_⟩
  · intro sel cache f
    cases sel with
    | none => rfl
    | some folder =>
      by_cases he : folder.isEmpty
      · simp [fileIndexedListener, he]
      · by_cases hs : jsStartsWith (normPath f.path) (normPath folder) = true
        · cases cache with
          | none =>
            simp [fileIndexedListener, he, hs, applyFileIndexed]
          | some old =>
            simp [fileIndexedListener, he, hs, applyFileIndexed_idem]
        · simp [fileIndexedListener, he, hs]
  · intro sel cache u
    cases sel with
    | none => rfl
    | some folder =>
      by_cases he : folder.isEmpty
      · simp [fileUpdatedListener, he]
      · by_cases hs : jsStartsWith (normPath u.path) (normPath folder) = true
        · cases cache with
          | none =>
            have h1 : applyFileUpdated [u] u = [u] := by
              rw [applyFileUpdated_cons, if_pos (by simp)]
            simp [fileUpdatedListener, he, hs, h1]
          | some old =>
            simp [fileUpdatedListener, he, hs, applyFileUpdated_idem]
        · simp [fileUpdatedListener, he, hs]
  · intro sel cache batch
    by_cases hb : batch.isEmpty
    · simp [filesIndexedBatchListener, hb]
    · cases sel with
      | none => simp [filesIndexedBatchListener, hb]
      | some folder =>
        by_cases he : folder.isEmpty
        · simp [filesIndexedBatchListener, hb, he]
        · by_cases hf : (batch.filter
              (fun f => jsStartsWith (normPath f.path) (normPath folder))).isEmpty
          · simp [filesIndexedBatchListener, hb, he, hf]
          · simp [filesIndexedBatchListener, hb, he, hf, applyBatchUpsert_idem]

theorem nodup_applyFileIndexed (f : FileMeta) {old : List FileMeta}
    (h : (keysOf old).Nodup) : (keysOf (applyFileIndexed old f)).Nodup := by
  by_cases ha : old.any (fun g => recordKey g == recordKey f) = true
  · simpa [applyFileIndexed, ha] using h
  · have hnot : recordKey f ∉ keysOf old := by
      intro hmem
      apply ha
      rw [anyKey_iff]
      obtain ⟨g, hg, hk⟩ := List.mem_map.mp hmem
      exact ⟨g, hg, hk⟩
    simp [applyFileIndexed, ha, keysOf, List.nodup_append]
    exact ⟨by simpa [keysOf] using h, by simpa [keysOf] using hnot⟩

theorem keysOf_applyFileUpdated_subset (u : FileMeta) :
    ∀ (old : List FileMeta), ∀ k ∈ keysOf (applyFileUpdated old u),
      k ∈ keysOf old ∨ k = recordKey u := by
  intro old
  induction old with
  | nil =>
    intro k hk
    right
    simpa [applyFileUpdated_nil, keysOf] using hk
  | cons g t ih =>
    intro k hk
    rw [applyFileUpdated_cons] at hk
    by_cases hh : (recordKey g == recordKey u) = true
    · rw [if_pos hh] at hk
      have hk2 : k = recordKey u ∨ k ∈ keysOf t := by
        simpa [keysOf] using hk
      rcases hk2 with h1 | h1
      · right; exact h1
      · left
        exact List.mem_cons_of_mem _ h1
    · rw [if_neg hh] at hk
      have hk2 : k = recordKey g ∨ k ∈ keysOf (applyFileUpdated t u) := by
        simpa [keysOf] using hk
      rcases hk2 with h1 | h1
      · left
        exact h1 ▸ List.mem_cons_self _ _
      · rcases ih k h1 with h2 | h2
        · left; exact List.mem_cons_of_mem _ h2
        · right; exact h2

theorem nodup_applyFileUpdated (u : FileMeta) :
    ∀ (old : List FileMeta), (keysOf old).Nodup →
      (keysOf (applyFileUpdated old u)).Nodup := by
  intro old
  induction old with
  | nil =>
    intro _
    simp [applyFileUpdated_nil, keysOf]
  | cons g t ih =>
    intro h
    have hc : (recordKey g :: keysOf t).Nodup := h
    have hg : recordKey g ∉ keysOf t := (List.nodup_cons.mp hc).1
    have ht : (keysOf t).Nodup := (List.nodup_cons.mp hc).2
    rw [applyFileUpdated_cons]
    by_cases hh : (recordKey g == recordKey u) = true
    · rw [if_pos hh]
      show (recordKey u :: keysOf t).Nodup
      rw [List.nodup_cons]
      exact ⟨by rw [← beq_iff_eq.mp hh]; exact hg, ht⟩
    · rw [if_neg hh]
      show (recordKey g :: keysOf (applyFileUpdated t u)).Nodup
      rw [List.nodup_cons]
      refine ⟨?_, ih ht⟩
      intro hmem
      rcases keysOf_applyFileUpdated_subset u t _ hmem with h1 | h1
      · exact hg h1
      · exact hh (beq_iff_eq.mpr h1)

/-- The batch updater yields duplicate-free keys unconditionally: its
result is the value sequence of a key-indexed map. -/
theorem nodup_applyBatchUpsert (old fs : List FileMeta) :
    (keysOf (applyBatchUpsert old fs)).Nodup := by
  have hal : alignedA (mapSetAll (mapSetAll [] old) fs) :=
    alignedA_mapSetAll fs (alignedA_mapSetAll old alignedA_nil)
  have hnd : (keysA (mapSetAll (mapSetAll [] old) fs)).Nodup :=
    nodup_keysA_mapSetAll fs (nodup_keysA_mapSetAll old (by simp [keysA]))
  show (keysOf (valsA (mapSetAll (mapSetAll [] old) fs))).Nodup
  rw [keysOf_valsA hal]
  exact hnd

/-- The stream of update events the App listeners process. -/
inductive CacheEvent where
  | fileIndexed (f : FileMeta)
  | fileUpdated (f : FileMeta)
  | filesIndexedBatch (fs : List FileMeta)

/-- Dispatch one event to its listener. -/
def applyCacheEvent (sel : Option Str) (cache : Option (List FileMeta)) :
    CacheEvent → Option (List FileMeta)
  | .fileIndexed f => fileIndexedListener sel cache f
  | .fileUpdated f => fileUpdatedListener sel cache f
  | .filesIndexedBatch fs => filesIndexedBatchListener sel cache fs

/-- A cache entry is duplicate-free when no two of its records share a
normalized path (an absent entry trivially is). -/
def dupFree : Option (List FileMeta) → Prop
  | none => True
  | some l => (keysOf l).Nodup

theorem dupFree_applyCacheEvent (sel : Option Str)
    (cache : Option (List FileMeta)) (ev : CacheEvent) (h : dupFree cache) :
    dupFree (applyCacheEvent sel cache ev) := by
  cases ev with
  | fileIndexed f =>
    show dupFree (fileIndexedListener sel cache f)
    cases sel with
    | none => exact h
    | some folder =>
      by_cases he : folder.isEmpty
      · simpa [fileIndexedListener, he] using h
      · by_cases hs : jsStartsWith (normPath f.path) (normPath folder) = true
        · cases cache with
          | none => simp [fileIndexedListener, he, hs, dupFree, keysOf]
          | some old =>
            simp only [fileIndexedListener, he, hs, if_true, if_false,
              Bool.false_eq_true, if_neg]
            exact nodup_applyFileIndexed f h
        · simpa [fileIndexedListener, he, hs] using h
  | fileUpdated f =>
    show dupFree (fileUpdatedListener sel cache f)
    cases sel with
    | none => exact h
    | some folder =>
      by_cases he : folder.isEmpty
      · simpa [fileUpdatedListener, he] using h
      · by_cases hs : jsStartsWith (normPath f.path) (normPath folder) = true
        · cases cache with
          | none => simp [fileUpdatedListener, he, hs, dupFree, keysOf]
          | some old =>
            simp only [fileUpdatedListener, he, hs, if_true, if_false,
              Bool.false_eq_true, if_neg]
            exact nodup_applyFileUpdated f old h
        · simpa [fileUpdatedListener, he, hs] using h
  | filesIndexedBatch fs =>
    show dupFree (filesIndexedBatchListener sel cache fs)
    by_cases hb : fs.isEmpty
    · simpa [filesIndexedBatchListener, hb] using h
    · cases sel with
      | none => simpa [filesIndexedBatchListener, hb] using h
      | some folder =>
        by_cases he : folder.isEmpty
        · simpa [filesIndexedBatchListener, hb, he] using h
        · by_cases hf : (fs.filter
              (fun f => jsStartsWith (normPath f.path) (normPath folder))).isEmpty
          · simpa [filesIndexedBatchListener, hb, he, hf] using h
          · simp only [filesIndexedBatchListener, hb, he, hf, Bool.false_eq_true,
              if_neg, if_false]
            exact nodup_applyBatchUpsert _ _

/-- C3: starting from any duplicate-free cache entry, every sequence of
`file-indexed`, `file-updated` and `files-indexed-batch` events leaves the
collection duplicate-free: at most one record per normalized path. -/
theorem c3_no_duplicates (sel : Option Str) (cache : Option (List FileMeta))
    (evs : List CacheEvent) (h : dupFree cache) :
    dupFree (evs.foldl (applyCacheEvent sel) cache) := by
  induction evs generalizing cache with
  | nil => exact h
  | cons e evs ih => exact ih _ (dupFree_applyCacheEvent sel cache e h)

/-- Witness for `c3_no_duplicates` at a concrete input. -/
theorem c3_no_duplicates_witness :
    dupFree (some [sampleFile]) ∧
    dupFree ([CacheEvent.fileIndexed sampleFileB,
      CacheEvent.filesIndexedBatch [sampleFileB, sampleFile],
      CacheEvent.fileUpdated sampleFileB].foldl
        (applyCacheEvent (some (str "C:/Lib"))) (some [sampleFile])) :=
  ⟨(by decide : (keysOf [sampleFile]).Nodup),
    c3_no_duplicates (some (str "C:/Lib")) (some [sampleFile]) _
      (by decide : (keysOf [sampleFile]).Nodup)⟩

/-! ## Folder scoping (claim C4) -/

/-- Separator unification: every backslash becomes a forward slash
(the `replace(/\\/g, "/")` idiom used throughout the sources). -/
def toSlashes (p : Str) : Str :=
  p.map (fun c => if c = '\\' then '/' else c)

/-- The spec's `normalize`: lower-case and unify separators (§4.1). -/
def specNormalize (p : Str) : Str := normPath (toSlashes p)

/-- The characters of a path before its last separator. -/
def parentDirOf (p : Str) : Str :=
  ((p.reverse.dropWhile (fun c => c ≠ '/')).drop 1).reverse

/-- The spec's `belongsToFolder` (§4.1): true iff the file's normalized
parent directory equals the normalized folder path exactly.  Stated from
the spec's words, for comparison against the admission test the listeners
actually perform. -/
def belongsToFolderSpec (filePath folderPath : Str) : Bool :=
  parentDirOf (specNormalize filePath) == specNormalize folderPath

/-- A record living in `C:/Library` — a sibling of `C:/Lib` whose name
merely begins with the folder's path string. -/
def libraryFile : FileMeta :=
  ⟨str "2", str "C:/Library/b.png", str "b.png", 5, str "m", str "c",
    str "png", none, none⟩

/-- A record living in `C:/Lib/Sub` — a strict subdirectory of `C:/Lib`. -/
def subdirFile : FileMeta :=
  ⟨str "3", str "C:/Lib/Sub/c.png", str "c.png", 5, str "m", str "c",
    str "png", none, none⟩

/-- C4 counterexample: with `C:/Lib` selected, both a record from the
sibling folder `C:/Library` and a record from the strict subdirectory
`C:/Lib/Sub` are admitted into the folder's collection by the
`file-indexed` listener, although neither satisfies the spec's
parent-directory test. -/
theorem c4_counterexample :
    belongsToFolderSpec (str "C:/Library/b.png") (str "C:/Lib") = false ∧
    fileIndexedListener (some (str "C:/Lib")) (some []) libraryFile
      = some [libraryFile] ∧
    belongsToFolderSpec (str "C:/Lib/Sub/c.png") (str "C:/Lib") = false ∧
    fileIndexedListener (some (str "C:/Lib")) (some []) subdirFile
      = some [subdirFile] := by
  decide

/-- C4 as amended: a record is admitted into the collection scoped to a
selected folder iff the folder string is non-empty and the lower-cased
record path starts with the lower-cased folder path — a pure string-prefix
test, which also admits strict subdirectories and same-prefix siblings. -/
theorem c4_admission_rule (folder : Str) (f : FileMeta) :
    (fileIndexedListener (some folder) (some []) f = some [f]
      ↔ (folder.isEmpty = false ∧
          jsStartsWith (normPath f.path) (normPath folder) = true)) ∧
    (filesIndexedBatchListener (some folder) (some []) [f] = some [f]
      ↔ (folder.isEmpty = false ∧
          jsStartsWith (normPath f.path) (normPath folder) = true)) := by
  by_cases he : folder.isEmpty
  · constructor
    · simp [fileIndexedListener, he]
    · simp [filesIndexedBatchListener, he]
  · by_cases hs : jsStartsWith (normPath f.path) (normPath folder) = true
    · constructor
      · simp [fileIndexedListener, he, hs, applyFileIndexed]
      · simp only [filesIndexedBatchListener, he, hs]
        simp [applyBatchUpsert, mapSetAll, mapSet, valsA,
          Bool.not_eq_true] at hs ⊢
        simp [he, hs]
    · constructor
      · simp [fileIndexedListener, he, hs]
      · simp only [filesIndexedBatchListener]
        simp [he, hs]

/-! ## Natural-order comparison (`src/lib/utils.ts`) and sorting -/

/-- Three-way lexicographic comparison of character lists by code point
(the ordering JavaScript's `<`/`>` induce on strings). -/
def lexComp : Str → Str → Int
  | [], [] => 0
  | [], _ :: _ => -1
  | _ :: _, [] => 1
  | a :: as, b :: bs => if a = b then lexComp as bs else if a < b then -1 else 1

/-- Model of JavaScript's default-locale `String.prototype.localeCompare`
on ASCII strings: case-insensitive at the primary level, with lower case
ordered before upper case as tie-break (as in the `en` default locale). -/
def localeCompare (a b : Str) : Int :=
  if lexComp (normPath a) (normPath b) = 0 then -(lexComp a b)
  else lexComp (normPath a) (normPath b)

/-- One maximal run produced by the regex `/(\d+)|(\D+)/g`: its text and
whether it is a digit run. -/
structure Chunk where
  value : Str
  num : Bool
  deriving Repr, DecidableEq

/-- Prepend one character to a chunk list, merging maximal runs. -/
def consChunk (c : Char) : List Chunk → List Chunk
  | [] => [⟨[c], c.isDigit⟩]
  | ch :: rest =>
    if ch.num = c.isDigit then ⟨c :: ch.value, ch.num⟩ :: rest
    else ⟨[c], c.isDigit⟩ :: ch :: rest

/-- The digit/non-digit run decomposition `naturalCompare` builds with
`/(\d+)|(\D+)/g`. -/
def chunksOf (s : Str) : List Chunk := s.foldr consChunk []

/-- `parseInt(run, 10)` on a digit run. -/
def parseNat (s : Str) : Nat := s.foldl (fun n c => n * 10 + (c.toNat - 48)) 0

/-- The chunk-comparison loop of `naturalCompare`: numeric difference on a
pair of digit runs, `localeCompare` on unequal text runs, shorter chunk
list first when one runs out. -/
def compareChunks : List Chunk → List Chunk → Int
  | [], [] => 0
  | [], _ :: _ => -1
  | _ :: _, [] => 1
  | a :: as, b :: bs =>
    if a.num && b.num then
      if (parseNat a.value : Int) - (parseNat b.value : Int) ≠ 0 then
        (parseNat a.value : Int) - (parseNat b.value : Int)
      else compareChunks as bs
    else if a.value ≠ b.value then localeCompare a.value b.value
    else compareChunks as bs

/-- `naturalCompare` of `src/lib/utils.ts`. -/
def naturalCompare (a b : Str) : Int := compareChunks (chunksOf a) (chunksOf b)

/-- Insert into a sorted list, keeping the incoming element in front of
later elements it compares `≤` to (stability). -/
def sortInsert {α : Type _} (le : α → α → Bool) (x : α) : List α → List α
  | [] => [x]
  | y :: ys => if le x y then x :: y :: ys else y :: sortInsert le x ys

/-- A stable comparison sort, modelling `Array.prototype.sort` with the
comparator `le a b ↔ comparator(a, b) ≤ 0`. -/
def jsSort {α : Type _} (le : α → α → Bool) : List α → List α
  | [] => []
  | x :: xs => sortInsert le x (jsSort le xs)

/-- `[...new Set(...)]`: deduplication keeping first occurrences. -/
def dedupFirstAux (seen : List Str) : List Str → List Str
  | [] => []
  | p :: rest =>
    if p ∈ seen then dedupFirstAux seen rest
    else p :: dedupFirstAux (p :: seen) rest

def dedupFirst (l : List Str) : List Str := dedupFirstAux [] l

/-- `p.split(/[/\\]/)`. -/
def splitOnSep : Str → List Str
  | [] => [[]]
  | c :: cs =>
    match splitOnSep cs with
    | [] => [[c]]
    | s :: ss => if c = '/' ∨ c = '\\' then [] :: s :: ss else (c :: s) :: ss

/-- `p.split("/")`. -/
def splitOnSlash : Str → List Str
  | [] => [[]]
  | c :: cs =>
    match splitOnSlash cs with
    | [] => [[c]]
    | s :: ss => if c = '/' then [] :: s :: ss else (c :: s) :: ss

/-- `path.split(/[/\\]/).filter(Boolean).pop() || path`: the display name
of a folder path. -/
def displayName (p : Str) : Str :=
  (((splitOnSep p).filter (fun s => !s.isEmpty)).getLast?).getD p

/-- `s.includes(q)` for JavaScript strings. -/
def jsIncludes (s q : Str) : Bool :=
  (List.range (s.length + 1)).any (fun i => jsStartsWith (s.drop i) q)

/-- One entry of the flat folder listing. -/
structure FolderEntry where
  path : Str
  name : Str
  deriving Repr, DecidableEq

/-- The `flatList` memo of the flat `FolderExplorer` variant: deduplicate
the folder paths, derive display names, apply the text filter, and sort by
`naturalCompare` on names. -/
def flatList (folders : List Str) (filter : Str) : List FolderEntry :=
  let unique := dedupFirst folders
  let entries := unique.map (fun p => (⟨p, displayName p⟩ : FolderEntry))
  let filtered := entries.filter (fun f =>
    if (filter.filter (fun c => !c.isWhitespace)).isEmpty then true
    else
      jsIncludes (normPath f.name) (normPath filter)
        || jsIncludes (normPath f.path) (normPath filter))
  jsSort (fun a b => decide (naturalCompare a.name b.name ≤ 0)) filtered

/-! ## Ancestry tree builder (`src/components/FolderExplorer.tsx`) -/

/-- The tree node shape of `FolderExplorer`. -/
inductive TreeNode where
  | mk (path : Str) (name : Str) (children : List TreeNode) (isVirtual : Bool)
  deriving Repr

def TreeNode.path : TreeNode → Str
  | ⟨p, _, _, _⟩ => p

def TreeNode.name : TreeNode → Str
  | ⟨_, n, _, _⟩ => n

def TreeNode.children : TreeNode → List TreeNode
  | ⟨_, _, c, _⟩ => c

def TreeNode.isVirtual : TreeNode → Bool
  | ⟨_, _, _, v⟩ => v

/-- The shared character run of two strings, as scanned by
`getCommonBase`'s `while` loop over `charAt`. -/
def commonCharRun : Str → Str → Str
  | a :: as, b :: bs => if a = b then a :: commonCharRun as bs else []
  | _, _ => []

/-- The tail of `getCommonBase` after sorting: intersect the first and
last sorted strings and back the result up to its final separator
(`prefix.substring(0, prefix.lastIndexOf("/"))` when a separator occurs). -/
def commonBaseOf (sorted : List Str) : Str :=
  let pre := commonCharRun (sorted.headD []) (sorted.getLastD [])
  if pre.any (fun c => c = '/') then parentDirOf pre else pre

/-- `getCommonBase` of `FolderExplorer.tsx`: fewer than two paths share no
base; otherwise sort the slash-normalized strings lexicographically (the
default `Array.prototype.sort`), intersect the first and last, and back the
result up to its final separator. -/
def getCommonBase (paths : List Str) : Str :=
  match paths with
  | [] => []
  | [_] => []
  | _ =>
    commonBaseOf
      (jsSort (fun a b => decide (lexComp a b ≤ 0)) (paths.map toSlashes))

/-- An indexed path paired with its slash-normalized form. -/
structure CleanPath where
  original : Str
  normalized : Str
  deriving Repr, DecidableEq

/-- Strip the Windows `\\?\` long-path marker, then unify separators. -/
def cleanOf (p : Str) : CleanPath :=
  ⟨p, toSlashes (if jsStartsWith p (str "\\\\?\\") then p.drop 4 else p)⟩

/-- A node record of the `nodeMap`, with child links by key. -/
structure NodeEntry where
  key : Str
  path : Str
  name : Str
  isVirtual : Bool
  childKeys : List Str
  deriving Repr, DecidableEq

/-- The mutable build state: `nodeMap` in insertion order plus `roots`. -/
structure BuildState where
  nodes : List NodeEntry
  rootKeys : List Str
  deriving Repr, DecidableEq

/-- `parentNode.children.push(node)`. -/
def addChildKey (nodes : List NodeEntry) (pk ck : Str) : List NodeEntry :=
  nodes.map (fun e =>
    if e.key == pk then { e with childKeys := e.childKeys ++ [ck] } else e)

/-- The body of the `segments.forEach` walk: extend `currentPath`, create
an unseen node (virtual unless this is the last segment) and link it to its
parent or to the roots, or — on the last segment of an already-seen path —
flip the node to real and restore the original path text. -/
def processSegment (original : Str) (lastIdx : Nat)
    (st : BuildState × Str × Option Str) (iseg : Nat × Str) :
    BuildState × Str × Option Str :=
  let state := st.1
  let cur := st.2.1
  let parentKey := st.2.2
  let idx := iseg.1
  let seg := iseg.2
  let cur2 := if cur.isEmpty then seg else cur ++ '/' :: seg
  let key := normPath cur2
  match state.nodes.find? (fun e => e.key == key) with
  | none =>
    let isLast := idx = lastIdx
    let entry : NodeEntry :=
      ⟨key, if isLast then original else cur2, seg, !isLast, []⟩
    let nodes1 := state.nodes ++ [entry]
    let state2 : BuildState :=
      match parentKey with
      | some pk => ⟨addChildKey nodes1 pk key, state.rootKeys⟩
      | none => ⟨nodes1, state.rootKeys ++ [key]⟩
    (state2, cur2, some key)
  | some _ =>
    let state2 : BuildState :=
      if idx = lastIdx then
        ⟨state.nodes.map (fun e =>
          if e.key == key then { e with isVirtual := false, path := original }
          else e), state.rootKeys⟩
      else state
    (state2, cur2, some key)

/-- Process one indexed path: split its remainder after the common base
into segments and walk them from the common base down. -/
def processPath (commonBase : Str) (commonBaseLen : Nat) (state : BuildState)
    (item : CleanPath) : BuildState :=
  let relative := item.normalized.drop commonBaseLen
  if relative.isEmpty then state
  else
    let segments := splitOnSlash relative
    (segments.enum.foldl (processSegment item.original (segments.length - 1))
      (state, commonBase, none)).1

/-- Materialize the node keyed `key` from the finished node map.  The child
links form a forest (a node's children are only ever created after it), so
`nodes.length` steps of fuel always suffice. -/
def buildNode (nodes : List NodeEntry) : Nat → Str → TreeNode
  | 0, key => ⟨key, [], [], true⟩
  | fuel + 1, key =>
    match nodes.find? (fun e => e.key == key) with
    | none => ⟨key, [], [], true⟩
    | some e => ⟨e.path, e.name, e.childKeys.map (buildNode nodes fuel), e.isVirtual⟩

/-- `sortNodes`: sort every level by `naturalCompare` on display names.
The fuel bounds the recursion depth; one unit more than the node count
always suffices for trees materialized by `buildNode`. -/
def sortNodesF : Nat → List TreeNode → List TreeNode
  | 0, ts => ts
  | fuel + 1, ts =>
    (jsSort (fun a b => decide (naturalCompare a.name b.name ≤ 0)) ts).map
      (fun t => ⟨t.path, t.name, sortNodesF fuel t.children, t.isVirtual⟩)

/-- `buildAncestryTree` of `FolderExplorer.tsx`. -/
def buildAncestryTree (paths : List Str) : List TreeNode :=
  if paths.isEmpty then []
  else
    let cleanPaths := (dedupFirst paths).map cleanOf
    let normalizedStrings := cleanPaths.map CleanPath.normalized
    let commonBase := getCommonBase normalizedStrings
    let commonBaseLen := if commonBase.isEmpty then 0 else commonBase.length + 1
    let sortedClean := jsSort
      (fun a b => decide (a.normalized.length ≤ b.normalized.length)) cleanPaths
    let finalState := sortedClean.foldl (processPath commonBase commonBaseLen)
      ⟨[], []⟩
    sortNodesF (finalState.nodes.length + 1)
      (finalState.rootKeys.map (buildNode finalState.nodes finalState.nodes.length))

/-! ## Order-theoretic facts about the comparators and the stable sort -/

theorem lexComp_refl : ∀ a : Str, lexComp a a = 0
  | [] => rfl
  | c :: cs => by rw [lexComp, if_pos rfl, lexComp_refl cs]

theorem lexComp_antisym : ∀ a b : Str, lexComp a b = -(lexComp b a)
  | [], [] => rfl
  | [], _ :: _ => rfl
  | _ :: _, [] => rfl
  | a :: as, b :: bs => by
    by_cases hab : a = b
    · rw [lexComp, lexComp, if_pos hab, if_pos hab.symm, lexComp_antisym as bs]
    · rcases lt_trichotomy a b with h | h | h
      · rw [lexComp, lexComp, if_neg hab, if_neg (Ne.symm hab), if_pos h,
          if_neg (not_lt_of_lt h)]
      · exact absurd h hab
      · rw [lexComp, lexComp, if_neg hab, if_neg (Ne.symm hab),
          if_neg (not_lt_of_lt h), if_pos h]
        omega

theorem lexComp_le_trans : ∀ a b c : Str,
    lexComp a b ≤ 0 → lexComp b c ≤ 0 → lexComp a c ≤ 0
  | [], _, [], _, _ => by rw [lexComp]
  | [], _, _ :: _, _, _ => by rw [lexComp]; omega
  | a :: as, [], c, hab, _ => by rw [lexComp] at hab; omega
  | a :: as, b :: bs, [], _, hbc => by rw [lexComp] at hbc; omega
  | a :: as, b :: bs, c :: cs, hab, hbc => by
    rw [lexComp] at hab hbc ⊢
    by_cases h1 : a = b
    · subst h1
      by_cases h2 : a = c
      · subst h2
        rw [if_pos rfl] at hab hbc ⊢
        exact lexComp_le_trans as bs cs hab hbc
      · rw [if_pos rfl] at hab
        rw [if_neg h2] at hbc ⊢
        exact hbc
    · rw [if_neg h1] at hab
      have hlt1 : a < b := by
        by_cases h : a < b
        · exact h
        · rw [if_neg h] at hab; omega
      by_cases h2 : b = c
      · subst h2
        rw [if_neg h1, if_pos hlt1]
        omega
      · rw [if_neg h2] at hbc
        have hlt2 : b < c := by
          by_cases h : b < c
          · exact h
          · rw [if_neg h] at hbc; omega
        have hlt : a < c := lt_trans hlt1 hlt2
        rw [if_neg (ne_of_lt hlt), if_pos hlt]
        omega

theorem localeCompare_antisym (a b : Str) :
    localeCompare a b = -(localeCompare b a) := by
  have h1 := lexComp_antisym (normPath a) (normPath b)
  have h2 := lexComp_antisym a b
  rw [localeCompare, localeCompare]
  by_cases h : lexComp (normPath a) (normPath b) = 0
  · rw [if_pos h, if_pos (by omega)]
    omega
  · rw [if_neg h, if_neg (by omega)]
    omega

theorem compareChunks_antisym : ∀ x y : List Chunk,
    compareChunks x y = -(compareChunks y x)
  | [], [] => rfl
  | [], _ :: _ => rfl
  | _ :: _, [] => rfl
  | a :: as, b :: bs => by
    rw [compareChunks, compareChunks]
    by_cases hnum : (a.num && b.num) = true
    · have hnum2 : (b.num && a.num) = true := by rw [Bool.and_comm]; exact hnum
      rw [if_pos hnum, if_pos hnum2]
      by_cases hd : (parseNat a.value : Int) - (parseNat b.value : Int) ≠ 0
      · have hd2 : (parseNat b.value : Int) - (parseNat a.value : Int) ≠ 0 := by
          omega
        rw [if_pos hd, if_pos hd2]
        omega
      · have hd2 : ¬ (parseNat b.value : Int) - (parseNat a.value : Int) ≠ 0 := by
          omega
        rw [if_neg hd, if_neg hd2]
        exact compareChunks_antisym as bs
    · have hnum2 : ¬ (b.num && a.num) = true := by rw [Bool.and_comm]; exact hnum
      rw [if_neg hnum, if_neg hnum2]
      by_cases hv : a.value ≠ b.value
      · have hv2 : b.value ≠ a.value := Ne.symm hv
        rw [if_pos hv, if_pos hv2]
        exact localeCompare_antisym a.value b.value
      · have hv2 : ¬ b.value ≠ a.value := fun h => hv (Ne.symm h)
        rw [if_neg hv, if_neg hv2]
        exact compareChunks_antisym as bs

theorem naturalCompare_antisym (a b : Str) :
    naturalCompare a b = -(naturalCompare b a) :=
  compareChunks_antisym (chunksOf a) (chunksOf b)

theorem sortInsert_mem {α : Type _} {le : α → α → Bool} {z x : α} :
    ∀ {l : List α}, z ∈ sortInsert le x l → z = x ∨ z ∈ l := by
  intro l
  induction l with
  | nil =>
    intro h
    rw [sortInsert] at h
    exact Or.inl (by simpa using h)
  | cons y ys ih =>
    intro h
    rw [sortInsert] at h
    by_cases hle : le x y
    · rw [if_pos hle] at h
      rcases List.mem_cons.mp h with h1 | h1
      · exact Or.inl h1
      · exact Or.inr h1
    · rw [if_neg hle] at h
      rcases List.mem_cons.mp h with h1 | h1
      · exact Or.inr (h1 ▸ List.mem_cons_self y ys)
      · rcases ih h1 with h2 | h2
        · exact Or.inl h2
        · exact Or.inr (List.mem_cons_of_mem y h2)

theorem mem_sortInsert_self {α : Type _} (le : α → α → Bool) (x : α) :
    ∀ (l : List α), x ∈ sortInsert le x l := by
  intro l
  induction l with
  | nil => rw [sortInsert]; exact List.mem_cons_self x []
  | cons y ys ih =>
    rw [sortInsert]
    by_cases hle : le x y
    · rw [if_pos hle]
      exact List.mem_cons_self _ _
    · rw [if_neg hle]
      exact List.mem_cons_of_mem y ih

theorem mem_sortInsert_of_mem {α : Type _} (le : α → α → Bool) (x : α)
    {z : α} : ∀ {l : List α}, z ∈ l → z ∈ sortInsert le x l := by
  intro l
  induction l with
  | nil => intro h; cases h
  | cons y ys ih =>
    intro h
    rw [sortInsert]
    by_cases hle : le x y
    · rw [if_pos hle]
      exact List.mem_cons_of_mem x h
    · rw [if_neg hle]
      rcases List.mem_cons.mp h with h1 | h1
      · exact h1 ▸ List.mem_cons_self y _
      · exact List.mem_cons_of_mem y (ih h1)

theorem jsSort_subset {α : Type _} {le : α → α → Bool} {z : α} :
    ∀ {l : List α}, z ∈ jsSort le l → z ∈ l := by
  intro l
  induction l with
  | nil => intro h; cases h
  | cons x xs ih =>
    intro h
    rw [jsSort] at h
    rcases sortInsert_mem h with h1 | h1
    · exact h1 ▸ List.mem_cons_self x xs
    · exact List.mem_cons_of_mem x (ih h1)

theorem mem_jsSort_of_mem {α : Type _} (le : α → α → Bool) {z : α} :
    ∀ {l : List α}, z ∈ l → z ∈ jsSort le l := by
  intro l
  induction l with
  | nil => intro h; cases h
  | cons x xs ih =>
    intro h
    rw [jsSort]
    rcases List.mem_cons.mp h with h1 | h1
    · exact h1 ▸ mem_sortInsert_self le x _
    · exact mem_sortInsert_of_mem le x (ih h1)

theorem sortInsert_pairwise {α : Type _} {le : α → α → Bool}
    (htot : ∀ x y, le x y = false → le y x = true)
    (htrans : ∀ x y z, le x y = true → le y z = true → le x z = true)
    (x : α) : ∀ {l : List α}, l.Pairwise (fun a b => le a b = true) →
      (sortInsert le x l).Pairwise (fun a b => le a b = true) := by
  intro l
  induction l with
  | nil =>
    intro _
    rw [sortInsert]
    exact List.pairwise_singleton _ x
  | cons y ys ih =>
    intro hp
    obtain ⟨hy, hys⟩ := List.pairwise_cons.mp hp
    rw [sortInsert]
    by_cases hle : le x y
    · rw [if_pos hle]
      refine List.pairwise_cons.mpr ⟨?_, hp⟩
      intro z hz
      rcases List.mem_cons.mp hz with h1 | h1
      · exact h1 ▸ hle
      · exact htrans x y z hle (hy z h1)
    · rw [if_neg hle]
      refine List.pairwise_cons.mpr ⟨?_, ih hys⟩
      intro z hz
      rcases sortInsert_mem hz with h1 | h1
      · exact h1 ▸ htot x y (by simpa using hle)
      · exact hy z h1

theorem jsSort_pairwise {α : Type _} {le : α → α → Bool}
    (htot : ∀ x y, le x y = false → le y x = true)
    (htrans : ∀ x y z, le x y = true → le y z = true → le x z = true) :
    ∀ (l : List α), (jsSort le l).Pairwise (fun a b => le a b = true) := by
  intro l
  induction l with
  | nil => exact List.Pairwise.nil
  | cons x xs ih =>
    rw [jsSort]
    exact sortInsert_pairwise htot htrans x ih

theorem sortInsert_chain {α : Type _} {le : α → α → Bool}
    (htot : ∀ x y, le x y = false → le y x = true)
    (x : α) : ∀ {l : List α}, l.Chain' (fun a b => le a b = true) →
      (sortInsert le x l).Chain' (fun a b => le a b = true) := by
  intro l
  induction l with
  | nil =>
    intro _
    rw [sortInsert]
    exact List.chain'_singleton x
  | cons y ys ih =>
    intro hc
    rw [sortInsert]
    by_cases hle : le x y
    · rw [if_pos hle]
      exact List.chain'_cons.mpr ⟨hle, hc⟩
    · rw [if_neg hle]
      have hcys : ys.Chain' (fun a b => le a b = true) := hc.tail
      cases ys with
      | nil =>
        rw [sortInsert]
        exact List.chain'_pair.mpr (htot x y (by simpa using hle))
      | cons z zs =>
        have hyz : le y z = true := (List.chain'_cons.mp hc).1
        have hins := ih hcys
        rw [sortInsert] at hins ⊢
        by_cases hxz : le x z
        · rw [if_pos hxz] at hins ⊢
          exact List.chain'_cons.mpr ⟨htot x y (by simpa using hle), hins⟩
        · rw [if_neg hxz] at hins ⊢
          exact List.chain'_cons.mpr ⟨hyz, hins⟩

theorem jsSort_chain {α : Type _} {le : α → α → Bool}
    (htot : ∀ x y, le x y = false → le y x = true) :
    ∀ (l : List α), (jsSort le l).Chain' (fun a b => le a b = true) := by
  intro l
  induction l with
  | nil => exact List.chain'_nil
  | cons x xs ih =>
    rw [jsSort]
    exact sortInsert_chain htot x ih

/-! ## The common base is a shared path prefix (claim C5) -/

theorem jsStartsWith_nil (s : Str) : jsStartsWith s [] = true := by
  cases s <;> rfl

theorem jsStartsWith_iff : ∀ (s pre : Str),
    jsStartsWith s pre = true ↔ ∃ t, s = pre ++ t
  | s, [] => by
    rw [jsStartsWith_nil]
    exact ⟨fun _ => ⟨s, rfl⟩, fun _ => rfl⟩
  | [], c :: cs => by
    rw [jsStartsWith]
    constructor
    · intro h
      cases h
    · rintro ⟨t, ht⟩
      cases ht
  | a :: as, c :: cs => by
    rw [jsStartsWith, Bool.and_eq_true]
    constructor
    · rintro ⟨h1, h2⟩
      have hac : a = c := beq_iff_eq.mp h1
      obtain ⟨t, ht⟩ := (jsStartsWith_iff as cs).mp h2
      exact ⟨t, by rw [hac, ht]; rfl⟩
    · rintro ⟨t, ht⟩
      rw [List.cons_append] at ht
      have hac : a = c := (List.cons.injEq _ _ _ _ ▸ ht).1
      have has : as = cs ++ t := (List.cons.injEq _ _ _ _ ▸ ht).2
      exact ⟨beq_iff_eq.mpr hac, (jsStartsWith_iff as cs).mpr ⟨t, has⟩⟩

theorem commonCharRun_nil_left (t : Str) : commonCharRun [] t = [] := by
  cases t <;> rfl

theorem commonCharRun_nil_right (s : Str) : commonCharRun s [] = [] := by
  cases s <;> rfl

theorem commonCharRun_between : ∀ (s t p : Str),
    lexComp s p ≤ 0 → lexComp p t ≤ 0 →
    jsStartsWith p (commonCharRun s t) = true
  | [], t, p, _, _ => by rw [commonCharRun_nil_left, jsStartsWith_nil]
  | _ :: _, [], p, _, _ => by rw [commonCharRun_nil_right, jsStartsWith_nil]
  | a :: as, b :: bs, p, hsp, hpt => by
    rw [commonCharRun]
    by_cases hab : a = b
    · rw [if_pos hab]
      cases p with
      | nil =>
        rw [lexComp] at hsp
        omega
      | cons c ps =>
        by_cases hac : a = c
        · subst hac
          subst hab
          rw [lexComp, if_pos rfl] at hsp hpt
          rw [jsStartsWith, Bool.and_eq_true]
          exact ⟨beq_iff_eq.mpr rfl, commonCharRun_between as bs ps hsp hpt⟩
        · exfalso
          rw [lexComp, if_neg hac] at hsp
          have hlt1 : a < c := by
            by_cases h : a < c
            · exact h
            · rw [if_neg h] at hsp
              omega
          have hcb : ¬ c = b := fun h => hac (hab.trans h.symm)
          rw [lexComp, if_neg hcb] at hpt
          have hlt2 : c < b := by
            by_cases h : c < b
            · exact h
            · rw [if_neg h] at hpt
              omega
          rw [← hab] at hlt2
          exact absurd (lt_trans hlt1 hlt2) (lt_irrefl a)
    · rw [if_neg hab, jsStartsWith_nil]

/-- Every string extends its own `parentDirOf`. -/
theorem parentDirOf_sub (q : Str) : ∃ t, q = parentDirOf q ++ t := by
  obtain ⟨u, hu⟩ := List.dropWhile_suffix (l := q.reverse) (fun c => decide (c ≠ '/'))
  obtain ⟨w, hw⟩ := List.drop_suffix 1 (q.reverse.dropWhile (fun c => decide (c ≠ '/')))
  refine ⟨(u ++ w).reverse, ?_⟩
  rw [parentDirOf]
  have hq : q.reverse = u ++ (w ++ (q.reverse.dropWhile (fun c => decide (c ≠ '/'))).drop 1) := by
    rw [hw, hu]
  calc q = q.reverse.reverse := (List.reverse_reverse q).symm
    _ = (u ++ (w ++ (q.reverse.dropWhile (fun c => decide (c ≠ '/'))).drop 1)).reverse := by
        rw [← hq]
    _ = ((q.reverse.dropWhile (fun c => decide (c ≠ '/'))).drop 1).reverse
          ++ (u ++ w).reverse := by
        simp [List.reverse_append, List.append_assoc]

theorem commonBaseOf_starts {S : List Str} {p : Str}
    (h1 : lexComp (S.headD []) p ≤ 0) (h2 : lexComp p (S.getLastD []) ≤ 0) :
    jsStartsWith p (commonBaseOf S) = true := by
  have hrun := commonCharRun_between _ _ _ h1 h2
  rw [commonBaseOf]
  by_cases hslash : (commonCharRun (S.headD []) (S.getLastD [])).any
      (fun c => c = '/') = true
  · simp only [if_pos hslash]
    obtain ⟨t1, ht1⟩ := (jsStartsWith_iff _ _).mp hrun
    obtain ⟨t2, ht2⟩ := parentDirOf_sub (commonCharRun (S.headD []) (S.getLastD []))
    refine (jsStartsWith_iff _ _).mpr ⟨t2 ++ t1, ?_⟩
    rw [ht1]
    nth_rewrite 1 [ht2]
    rw [List.append_assoc]
  · simp only [if_neg hslash]
    exact hrun

theorem lexLe_refl (a : Str) : decide (lexComp a a ≤ 0) = true :=
  decide_eq_true (by rw [lexComp_refl])

theorem lexLe_tot (x y : Str) : decide (lexComp x y ≤ 0) = false →
    decide (lexComp y x ≤ 0) = true := by
  intro h
  have h1 : ¬ lexComp x y ≤ 0 := of_decide_eq_false h
  have h2 := lexComp_antisym x y
  exact decide_eq_true (by omega)

theorem lexLe_trans (x y z : Str) : decide (lexComp x y ≤ 0) = true →
    decide (lexComp y z ≤ 0) = true → decide (lexComp x z ≤ 0) = true := by
  intro h1 h2
  exact decide_eq_true
    (lexComp_le_trans x y z (of_decide_eq_true h1) (of_decide_eq_true h2))

theorem pairwise_headD_le {le : Str → Str → Bool} (hrefl : ∀ a, le a a = true) :
    ∀ {S : List Str}, S.Pairwise (fun a b => le a b = true) →
      ∀ p ∈ S, le (S.headD []) p = true := by
  intro S
  induction S with
  | nil => intro _ p hp; cases hp
  | cons x rest _ =>
    intro hp p hmem
    obtain ⟨hx, _⟩ := List.pairwise_cons.mp hp
    rcases List.mem_cons.mp hmem with h1 | h1
    · rw [List.headD_cons, h1]
      exact hrefl x
    · rw [List.headD_cons]
      exact hx p h1

theorem pairwise_le_getLastD {le : Str → Str → Bool}
    (hrefl : ∀ a, le a a = true) :
    ∀ {S : List Str}, S.Pairwise (fun a b => le a b = true) →
      ∀ p ∈ S, ∀ d, le p (S.getLastD d) = true := by
  intro S
  induction S with
  | nil => intro _ p hp; cases hp
  | cons x rest ih =>
    intro hp p hmem d
    obtain ⟨hx, hrest⟩ := List.pairwise_cons.mp hp
    rw [List.getLastD_cons]
    rcases List.mem_cons.mp hmem with h1 | h1
    · rw [h1]
      rcases List.mem_cons.mp (List.getLastD_mem_cons rest x) with h2 | h2
      · rw [h2]
        exact hrefl x
      · exact hx _ h2
    · cases rest with
      | nil => cases h1
      | cons y rs => exact ih hrest p h1 x

/-- C5: the common base computed by the tree builder is a character prefix
of every normalized input path (so eliding it below the common base loses
no information), and on the claim's concrete input
`["C:/Lib/2024/Jan", "C:/Lib/2024/Feb"]` the computed base is exactly
`C:/Lib/2024` and the returned forest is exactly the two real leaf nodes
`Feb` and `Jan` (naturally sorted), with the shared ancestor chain elided. -/
theorem c5_common_base_elision :
    (∀ (paths : List Str), ∀ p ∈ paths,
      jsStartsWith (toSlashes p) (getCommonBase paths) = true) ∧
    getCommonBase [str "C:/Lib/2024/Jan", str "C:/Lib/2024/Feb"]
      = str "C:/Lib/2024" ∧
    buildAncestryTree [str "C:/Lib/2024/Jan", str "C:/Lib/2024/Feb"]
      = [⟨str "C:/Lib/2024/Feb", str "Feb", [], false⟩,
         ⟨str "C:/Lib/2024/Jan", str "Jan", [], false⟩] := by
  refine ⟨?_, rfl, rfl⟩
  intro paths p hp
  match paths, hp with
  | x :: [], hp =>
    have : getCommonBase [x] = [] := rfl
    rw [this, jsStartsWith_nil]
  | x :: y :: rest, hp =>
    have hunfold : getCommonBase (x :: y :: rest)
        = commonBaseOf (jsSort (fun a b => decide (lexComp a b ≤ 0))
            ((x :: y :: rest).map toSlashes)) := rfl
    rw [hunfold]
    have hmem : toSlashes p ∈ (x :: y :: rest).map toSlashes :=
      List.mem_map_of_mem toSlashes hp
    have hmemS := mem_jsSort_of_mem (fun a b => decide (lexComp a b ≤ 0)) hmem
    have hpw := jsSort_pairwise lexLe_tot lexLe_trans ((x :: y :: rest).map toSlashes)
    have hhead := pairwise_headD_le lexLe_refl hpw (toSlashes p) hmemS
    have hlast := pairwise_le_getLastD lexLe_refl hpw (toSlashes p) hmemS []
    exact commonBaseOf_starts (of_decide_eq_true hhead) (of_decide_eq_true hlast)

/-- Witness for `c5_common_base_elision` at a concrete input. -/
theorem c5_common_base_elision_witness :
    str "C:/Lib/2024/Jan" ∈ [str "C:/Lib/2024/Jan", str "C:/Lib/2024/Feb"] ∧
    jsStartsWith (toSlashes (str "C:/Lib/2024/Jan"))
      (getCommonBase [str "C:/Lib/2024/Jan", str "C:/Lib/2024/Feb"]) = true :=
  ⟨by decide,
    c5_common_base_elision.1 [str "C:/Lib/2024/Jan", str "C:/Lib/2024/Feb"]
      (str "C:/Lib/2024/Jan") (by decide)⟩

/-! ## Natural order at every tree level and in the flat listing (C6) -/

theorem natLe_tot (x y : Str) : decide (naturalCompare x y ≤ 0) = false →
    decide (naturalCompare y x ≤ 0) = true := by
  intro h
  have h1 := of_decide_eq_false h
  have h2 := naturalCompare_antisym x y
  exact decide_eq_true (by omega)

/-- Every level of a forest is in natural order, recursively. -/
inductive SortedForest : List TreeNode → Prop where
  | mk (ts : List TreeNode)
      (hadj : List.Chain' (fun a b => naturalCompare a.name b.name ≤ 0) ts)
      (hchildren : ∀ t ∈ ts, SortedForest t.children) :
      SortedForest ts

theorem sortedForest_nil : SortedForest [] :=
  SortedForest.mk [] List.chain'_nil (fun t ht => absurd ht (List.not_mem_nil t))

theorem sortNodesF_chain (fuel : Nat) (ts : List TreeNode) :
    List.Chain' (fun a b => naturalCompare a.name b.name ≤ 0)
      (sortNodesF (fuel + 1) ts) := by
  rw [sortNodesF, List.chain'_map]
  exact List.Chain'.imp (fun a b h => of_decide_eq_true h)
    (jsSort_chain (fun x y h => natLe_tot x.name y.name h) ts)

theorem sortedForest_sortNodesF (nodes : List NodeEntry) :
    ∀ (fuel : Nat) (keys : List Str),
      SortedForest (sortNodesF (fuel + 1) (keys.map (buildNode nodes fuel))) := by
  intro fuel
  induction fuel with
  | zero =>
    intro keys
    refine SortedForest.mk _ (sortNodesF_chain 0 _) ?_
    rw [sortNodesF]
    intro t ht
    obtain ⟨t0, ht0, rfl⟩ := List.mem_map.mp ht
    obtain ⟨k, hk, rfl⟩ := List.mem_map.mp (jsSort_subset ht0)
    show SortedForest (sortNodesF 0 (buildNode nodes 0 k).children)
    exact sortedForest_nil
  | succ m ih =>
    intro keys
    refine SortedForest.mk _ (sortNodesF_chain (m + 1) _) ?_
    rw [sortNodesF]
    intro t ht
    obtain ⟨t0, ht0, rfl⟩ := List.mem_map.mp ht
    obtain ⟨k, hk, rfl⟩ := List.mem_map.mp (jsSort_subset ht0)
    show SortedForest (sortNodesF (m + 1) (buildNode nodes (m + 1) k).children)
    cases hfind : nodes.find? (fun e => e.key == k) with
    | none =>
      have hb : buildNode nodes (m + 1) k = ⟨k, [], [], true⟩ := by
        rw [buildNode, hfind]
      rw [hb]
      show SortedForest (sortNodesF (m + 1) (([] : List Str).map (buildNode nodes m)))
      exact ih []
    | some e =>
      have hb : buildNode nodes (m + 1) k
          = ⟨e.path, e.name, e.childKeys.map (buildNode nodes m), e.isVirtual⟩ := by
        rw [buildNode, hfind]
      rw [hb]
      show SortedForest (sortNodesF (m + 1) (e.childKeys.map (buildNode nodes m)))
      exact ih e.childKeys

theorem sortedForest_buildAncestryTree (paths : List Str) :
    SortedForest (buildAncestryTree paths) := by
  rw [buildAncestryTree]
  by_cases h : paths.isEmpty
  · rw [if_pos h]
    exact sortedForest_nil
  · rw [if_neg h]
    exact sortedForest_sortNodesF _ _ _

theorem compareChunks_digitRun : ∀ (pre : List Chunk) (ca cb : Chunk)
    (ra rb : List Chunk), ca.num = true → cb.num = true →
    parseNat ca.value < parseNat cb.value →
    compareChunks (pre ++ ca :: ra) (pre ++ cb :: rb) < 0 := by
  intro pre
  induction pre with
  | nil =>
    intro ca cb ra rb hca hcb hlt
    rw [List.nil_append, List.nil_append, compareChunks,
      if_pos (by rw [hca, hcb]; rfl),
      if_pos (show (parseNat ca.value : Int) - parseNat cb.value ≠ 0 by omega)]
    omega
  | cons x pre ih =>
    intro ca cb ra rb hca hcb hlt
    rw [List.cons_append, List.cons_append, compareChunks]
    by_cases hx : (x.num && x.num) = true
    · rw [if_pos hx,
        if_neg (show ¬ ((parseNat x.value : Int) - parseNat x.value ≠ 0) by omega)]
      exact ih ca cb ra rb hca hcb hlt
    · rw [if_neg hx, if_neg (show ¬ x.value ≠ x.value from fun h => h rfl)]
      exact ih ca cb ra rb hca hcb hlt

/-- C6: every level of the built ancestry tree is in natural order, the
flat folder listing is in natural order, natural order puts the name with
the numerically smaller first differing digit run first, and the folder
names `img2, img10, img1` list as `img1, img2, img10`. -/
theorem c6_natural_order :
    (∀ (folders : List Str), SortedForest (buildAncestryTree folders)) ∧
    (∀ (folders : List Str) (filter : Str),
      List.Chain' (fun a b => naturalCompare a.name b.name ≤ 0)
        (flatList folders filter)) ∧
    (∀ (a b : Str) (pre : List Chunk) (ca cb : Chunk) (ra rb : List Chunk),
      chunksOf a = pre ++ ca :: ra → chunksOf b = pre ++ cb :: rb →
      ca.num = true → cb.num = true →
      parseNat ca.value < parseNat cb.value → naturalCompare a b < 0) ∧
    (flatList [str "img2", str "img10", str "img1"] []).map FolderEntry.name
      = [str "img1", str "img2", str "img10"] := by
  refine ⟨sortedForest_buildAncestryTree, ?_, ?_, by decide⟩
  · intro folders filter
    rw [flatList]
    exact List.Chain'.imp (fun a b h => of_decide_eq_true h)
      (jsSort_chain (fun x y h => natLe_tot x.name y.name h) _)
  · intro a b pre ca cb ra rb ha hb hca hcb hlt
    rw [naturalCompare, ha, hb]
    exact compareChunks_digitRun pre ca cb ra rb hca hcb hlt

/-- Witness for `c6_natural_order` at a concrete input. -/
theorem c6_natural_order_witness :
    chunksOf (str "Folder2") = [⟨str "Folder", false⟩] ++ [⟨str "2", true⟩] ∧
    chunksOf (str "Folder10") = [⟨str "Folder", false⟩] ++ [⟨str "10", true⟩] ∧
    naturalCompare (str "Folder2") (str "Folder10") < 0 :=
  ⟨by decide, by decide,
    c6_natural_order.2.2.1 (str "Folder2") (str "Folder10")
      [⟨str "Folder", false⟩] ⟨str "2", true⟩ ⟨str "10", true⟩ [] []
      (by decide) (by decide) (by decide) (by decide) (by decide)⟩

end Lumous
